import Mathlib

/-!
Verification of `stevensMapLib.hpp` against its natural-language specification.

The C++ library operates on `std::unordered_map<K,V>`: a finite collection of
unique keys bound to values, iterated in some fixed order.  We shallowly embed
such a map as an association list `UMap K V` (the list order is the iteration
order); the uniqueness of keys is the predicate `nodupKeys`, assumed where a
theorem needs it.  C++ template functions using `operator+` on `K`/`V` become
Lean functions parameterised by explicit binary operations `addK`/`addV`.
Fallible or undefined-behaviour paths (dereferencing `begin()` of an empty
container, `rand() % 0`) are embedded as `Option`, with `none` marking the
out-of-range access.
-/

namespace StevensMapLib

/-- Shallow embedding of `std::unordered_map<K,V>`: entries in iteration order. -/
abbrev UMap (K V : Type) := List (K × V)

variable {K V : Type}

/-- Embeds `map.contains(k)` of `std::unordered_map`. -/
def contains [DecidableEq K] (m : UMap K V) (k : K) : Bool :=
  m.any fun p => decide (p.1 = k)

/-- The value bound to `k`, if any (first entry with key `k`). -/
def lookup [DecidableEq K] (m : UMap K V) (k : K) : Option V :=
  (m.find? fun p => decide (p.1 = k)).map Prod.snd

/-- A read through `operator[]` on a key assumed present; absent keys give the
default-constructed value (the C++ `operator[]` would insert it). -/
def getV [DecidableEq K] [Inhabited V] (m : UMap K V) (k : K) : V :=
  (lookup m k).getD default

/-- Embeds `m[k] = v`: assign through `operator[]`, overwriting in place if the key is
present and appending a new entry otherwise. -/
def setItem [DecidableEq K] : UMap K V → K → V → UMap K V
  | [], k, v => [(k, v)]
  | p :: rest, k, v => if p.1 = k then (p.1, v) :: rest else p :: setItem rest k v

/-- Embeds `m.emplace(k, v)`: insert only if the key is absent; no effect otherwise. -/
def emplace [DecidableEq K] (m : UMap K V) (k : K) (v : V) : UMap K V :=
  if contains m k then m else m ++ [(k, v)]

/-- Embeds `m.erase(k)`: remove the entry with key `k`, if present. -/
def erase [DecidableEq K] : UMap K V → K → UMap K V
  | [], _ => []
  | p :: rest, k => if p.1 = k then rest else p :: erase rest k

/-- The keys of the map in iteration order. -/
def keys (m : UMap K V) : List K :=
  m.map Prod.fst

/-- The map invariant of `std::unordered_map`: keys are pairwise distinct. -/
def nodupKeys (m : UMap K V) : Prop :=
  (keys m).Nodup

instance [DecidableEq K] (m : UMap K V) : Decidable (nodupKeys m) := by
  unfold nodupKeys; infer_instance

/-! ### `addUnordered_maps`

The C++ function iterates over `A` (first loop), then — unless
`omitKeysNotShared` — over `B` (second loop).  Each range-`for` loop is
embedded as a structural recursion over the entry list, threading the
accumulator map `AB`. -/

/-- First loop of `addUnordered_maps`: for each entry of `A`, combine with `B`
on shared keys according to `addOperationTarget`, else copy the entry through
unless `omitKeysNotShared`. -/
def addLoop1 [DecidableEq K] [Inhabited V] (addK : K → K → K) (addV : V → V → V)
    (A B : UMap K V) (addOperationTarget : String) (omitKeysNotShared : Bool) :
    List (K × V) → UMap K V → UMap K V
  | [], AB => AB
  | (key, value) :: rest, AB =>
    addLoop1 addK addV A B addOperationTarget omitKeysNotShared rest
      (if contains B key then
        if addOperationTarget = "values" then
          setItem AB key (addV (getV A key) (getV B key))
        else
          setItem AB (addK key key) (addV (getV A key) (getV B key))
      else
        if !omitKeysNotShared then setItem AB key value else AB)

/-- Second loop of `addUnordered_maps`: add the entries of `B` whose keys are
not already present in `AB`. -/
def addLoop2 [DecidableEq K] : List (K × V) → UMap K V → UMap K V
  | [], AB => AB
  | (key, value) :: rest, AB =>
    addLoop2 rest (if !contains AB key then setItem AB key value else AB)

/-- Embeds `stevensMapLib::addUnordered_maps` (spec name: `mergeMappings`). -/
def addUnordered_maps [DecidableEq K] [Inhabited V] (addK : K → K → K)
    (addV : V → V → V) (A B : UMap K V)
    (addOperationTarget : String := "keys and values")
    (omitKeysNotShared : Bool := false) : UMap K V :=
  let AB := addLoop1 addK addV A B addOperationTarget omitKeysNotShared A []
  if !omitKeysNotShared then addLoop2 B AB else AB

/-! ### Key sampling and random pop

`getRandomKey` advances `map.begin()` by `rand() % map.size()` and dereferences;
`getFirstKey` dereferences `map.begin()` directly.  Neither checks for
emptiness: on an empty map the first computes `rand() % 0` (undefined
behaviour) and both dereference a past-the-end iterator.  The embedding makes
the random draw an explicit argument `r` and returns `Option`, with `none`
arising exactly from the out-of-range access on the entry list. -/

/-- Embeds `stevensMapLib::getRandomKey` (spec name: `pickRandomKey`) with the value
of `rand()` passed explicitly as `r`. -/
def getRandomKey (m : UMap K V) (r : Nat) : Option K :=
  (m.get? (r % m.length)).map Prod.fst

/-- Embeds `stevensMapLib::getFirstKey` (spec name: `firstKey`). -/
def getFirstKey (m : UMap K V) : Option K :=
  (m.get? 0).map Prod.fst

/-- Embeds `stevensMapLib::popRandom` (spec name: `popRandomPair`): pick a random key,
read its value through `operator[]`, erase the entry, and return the pair
together with the post-state of the map. -/
def popRandom [DecidableEq K] [Inhabited V] (m : UMap K V) (r : Nat) :
    Option ((K × V) × UMap K V) :=
  match getRandomKey m r with
  | none => none
  | some key => some ((key, getV m key), erase m key)

/-! ### `eraseStringFromKeys` and its string collaborator -/

/-- Modelled from the spec: the collaborator `stevensStringLib::replaceSubstr`
(from the external string library, not part of this repository's sources)
replaces all occurrences of a substring, left to right and non-overlapping.
Recursion on an explicit fuel equal to the length of the scanned list; each
step consumes at least one character, so that fuel suffices. -/
def replaceSubstrFuel (target repl : List Char) : Nat → List Char → List Char
  | 0, s => s
  | _ + 1, [] => []
  | fuel + 1, c :: rest =>
    if target.isPrefixOf (c :: rest) ∧ target ≠ []
    then repl ++ replaceSubstrFuel target repl fuel ((c :: rest).drop target.length)
    else c :: replaceSubstrFuel target repl fuel rest

/-- Modelled from the spec: `stevensStringLib::replaceSubstr s target repl`
replaces every occurrence of `target` in `s` by `repl`. -/
def replaceSubstr (s target repl : String) : String :=
  ⟨replaceSubstrFuel target.data repl.data s.data.length s.data⟩

/-- Loop of `eraseStringFromKeys`: strip `str` from each key and `emplace`
the result into the accumulator map. -/
def eraseLoop (str : String) :
    List (String × V) → UMap String V → UMap String V
  | [], rm => rm
  | (key, value) :: rest, rm =>
    eraseLoop str rest (emplace rm (replaceSubstr key str "") value)

/-- Embeds `stevensMapLib::eraseStringFromKeys` (spec name: `stripPrefixFromKeys`). -/
def eraseStringFromKeys (m : UMap String V) (str : String) :
    UMap String V :=
  eraseLoop str m []

/-! ### `setNegativeValuesToZero` -/

/-- Loop of `setNegativeValuesToZero`: visit the entries in iteration order and
assign `map[key] = 0` whenever the visited value is negative. -/
def negLoop [DecidableEq K] : List (K × Int) → UMap K Int → UMap K Int
  | [], mp => mp
  | (key, value) :: rest, mp =>
    negLoop rest (if value < 0 then setItem mp key 0 else mp)

/-- Embeds `stevensMapLib::setNegativeValuesToZero` (spec name: `zeroNegativeValues`),
returning the post-state of the map mutated in place by the C++ code. -/
def setNegativeValuesToZero [DecidableEq K] (m : UMap K Int) : UMap K Int :=
  negLoop m m

/-! ### Decimal representation facts

`std::to_string` on a non-negative integer is embedded as `Nat.repr` (Lean's
own decimal printer).  `createUniqueKeyString`'s loop terminates because the
suffixed candidates `orig ++ Nat.repr i` are pairwise distinct while the map
is finite; distinctness needs injectivity of `Nat.repr`, proved here through a
left-to-right decimal parse. -/

/-- Numeric value of a decimal digit character. -/
def decDigitVal (c : Char) : Nat :=
  c.toNat - 48

/-- Accumulator-style parse of a decimal digit list. -/
def parseAcc : List Char → Nat → Nat
  | [], a => a
  | c :: cs, a => parseAcc cs (10 * a + decDigitVal c)

theorem parseAcc_append (l1 l2 : List Char) (a : Nat) :
    parseAcc (l1 ++ l2) a = parseAcc l2 (parseAcc l1 a) := by
  induction l1 generalizing a with
  | nil => rfl
  | cons c cs ih => exact ih (10 * a + decDigitVal c)

theorem decDigitVal_digitChar (d : Nat) (h : d < 10) :
    decDigitVal (Nat.digitChar d) = d := by
  interval_cases d <;> rfl

theorem toDigitsCore_eq_append (n : Nat) :
    ∀ fuel ds, n < fuel →
      Nat.toDigitsCore 10 fuel n ds = Nat.toDigits 10 n ++ ds := by
  induction n using Nat.strong_induction_on with
  | _ n ih =>
    intro fuel ds hfuel
    match fuel, hfuel with
    | f + 1, hfuel =>
      by_cases h0 : n / 10 = 0
      · simp [Nat.toDigitsCore, Nat.toDigits, h0]
      · have hn : 0 < n := by
          rcases Nat.eq_zero_or_pos n with h | h
          · exact absurd (by simp [h]) h0
          · exact h
        have hdiv : n / 10 < n := Nat.div_lt_self hn (by norm_num)
        have hf : n / 10 < f := by omega
        have lhs : Nat.toDigitsCore 10 (f + 1) n ds =
            Nat.toDigits 10 (n / 10) ++ (Nat.digitChar (n % 10) :: ds) := by
          simp only [Nat.toDigitsCore, h0, if_false]
          exact ih (n / 10) hdiv f _ hf
        have rhs : Nat.toDigits 10 n =
            Nat.toDigits 10 (n / 10) ++ [Nat.digitChar (n % 10)] := by
          show Nat.toDigitsCore 10 (n + 1) n [] = _
          simp only [Nat.toDigitsCore, h0, if_false]
          exact ih (n / 10) hdiv n _ (by omega)
        rw [lhs, rhs, List.append_assoc]
        rfl

theorem parseAcc_toDigits (n : Nat) :
    ∀ a, parseAcc (Nat.toDigits 10 n) a =
      a * 10 ^ (Nat.toDigits 10 n).length + n := by
  induction n using Nat.strong_induction_on with
  | _ n ih =>
    intro a
    by_cases h0 : n / 10 = 0
    · have hlt : n < 10 := (Nat.div_eq_zero_iff (by norm_num)).mp h0
      have hD : Nat.toDigits 10 n = [Nat.digitChar (n % 10)] := by
        simp [Nat.toDigits, Nat.toDigitsCore, h0]
      rw [hD, Nat.mod_eq_of_lt hlt]
      simp [parseAcc, decDigitVal_digitChar n hlt]
      omega
    · have hn : 0 < n := by
        rcases Nat.eq_zero_or_pos n with h | h
        · exact absurd (by simp [h]) h0
        · exact h
      have hdiv : n / 10 < n := Nat.div_lt_self hn (by norm_num)
      have hsplit : Nat.toDigits 10 n =
          Nat.toDigits 10 (n / 10) ++ [Nat.digitChar (n % 10)] := by
        show Nat.toDigitsCore 10 (n + 1) n [] = _
        simp only [Nat.toDigitsCore, h0, if_false]
        exact toDigitsCore_eq_append (n / 10) n _ (by omega)
      rw [hsplit, parseAcc_append, ih (n / 10) hdiv a]
      simp [parseAcc, decDigitVal_digitChar (n % 10) (Nat.mod_lt _ (by norm_num)),
        List.length_append, pow_succ]
      have hx : 0 < 10 ^ (Nat.toDigits 10 (n / 10)).length := Nat.pos_pow_of_pos _ (by norm_num)
      generalize 10 ^ (Nat.toDigits 10 (n / 10)).length = x at hx ⊢
      have := Nat.div_add_mod n 10
      ring_nf
      omega

theorem toDigits_ten_injective (m n : Nat)
    (h : Nat.toDigits 10 m = Nat.toDigits 10 n) : m = n := by
  have h1 := parseAcc_toDigits m 0
  have h2 := parseAcc_toDigits n 0
  rw [h, h2] at h1
  simpa using h1.symm

theorem repr_injective (m n : Nat) (h : Nat.repr m = Nat.repr n) : m = n := by
  apply toDigits_ten_injective
  exact congrArg String.data h

theorem append_repr_injective (orig : String) {x y : Nat}
    (h : orig ++ Nat.repr x = orig ++ Nat.repr y) : x = y := by
  apply repr_injective
  apply String.ext
  have hd := congrArg String.data h
  simp only [String.data_append] at hd
  exact List.append_cancel_left hd

/-- Membership form of `contains`. -/
theorem contains_iff_mem_keys [DecidableEq K] (m : UMap K V) (k : K) :
    contains m k = true ↔ k ∈ keys m := by
  simp [contains, keys, List.any_eq_true]

/-- Since the map is finite and the suffixed candidate keys are pairwise
distinct, some suffix at or beyond `i` is unused. -/
theorem suffixUnused (m : UMap String V) (orig : String) (i : Nat) :
    ∃ d, contains m (orig ++ Nat.repr (i + d)) = false := by
  by_contra hall
  push_neg at hall
  have htrue : ∀ d, contains m (orig ++ Nat.repr (i + d)) = true := by
    intro d
    cases h : contains m (orig ++ Nat.repr (i + d)) with
    | false => exact absurd h (hall d)
    | true => rfl
  have hmem : ∀ d, (orig ++ Nat.repr (i + d)) ∈ keys m := fun d =>
    (contains_iff_mem_keys m _).mp (htrue d)
  classical
  have hinj : Set.InjOn (fun d => orig ++ Nat.repr (i + d))
      ↑(Finset.range (m.length + 1)) := by
    intro d1 _ d2 _ hEq
    have := append_repr_injective orig hEq
    omega
  have hcard : (Finset.image (fun d => orig ++ Nat.repr (i + d))
      (Finset.range (m.length + 1))).card = m.length + 1 := by
    rw [Finset.card_image_of_injOn hinj, Finset.card_range]
  have hsub : Finset.image (fun d => orig ++ Nat.repr (i + d))
      (Finset.range (m.length + 1)) ⊆ (keys m).toFinset := by
    intro s hs
    rcases Finset.mem_image.mp hs with ⟨d, _, rfl⟩
    exact List.mem_toFinset.mpr (hmem d)
  have hle := Finset.card_le_card hsub
  have hfin : (keys m).toFinset.card ≤ m.length := by
    have := List.toFinset_card_le (keys m)
    simpa [keys] using this
  omega

/-- When the key tried at suffix `i` is still contained in the map, the
distance to the next unused suffix strictly shrinks. -/
theorem find_suffixUnused_decreases (m : UMap String V) (orig : String)
    (i : Nat) (h : contains m (orig ++ Nat.repr i) = true) :
    Nat.find (suffixUnused m orig (i + 1)) <
      Nat.find (suffixUnused m orig i) := by
  have h0 : Nat.find (suffixUnused m orig i) ≠ 0 := by
    intro heq
    have hspec := Nat.find_spec (suffixUnused m orig i)
    rw [heq, Nat.add_zero, h] at hspec
    cases hspec
  have hle : Nat.find (suffixUnused m orig (i + 1)) ≤
      Nat.find (suffixUnused m orig i) - 1 := by
    apply Nat.find_min'
    have hspec := Nat.find_spec (suffixUnused m orig i)
    have harith : i + 1 + (Nat.find (suffixUnused m orig i) - 1) =
        i + Nat.find (suffixUnused m orig i) := by omega
    rw [harith]
    exact hspec
  omega

/-- The `while` loop of `createUniqueKeyString` with the
`"integer concatenation"` algorithm: starting from suffix `i`, try
`orig ++ std::to_string(i)`, `orig ++ std::to_string(i+1)`, … until a key not
contained in the map is found. -/
def findSuffix (m : UMap String V) (orig : String) (i : Nat) : String :=
  if h : contains m (orig ++ Nat.repr i) = true then findSuffix m orig (i + 1)
  else orig ++ Nat.repr i
termination_by Nat.find (suffixUnused m orig i)
decreasing_by
  exact find_suffixUnused_decreases m orig i h

/-- Embeds `stevensMapLib::createUniqueKeyString` (spec name: `makeUniqueKey`).  The
C++ `while` loop is `findSuffix`; any algorithm other than
`"integer concatenation"` leaves the candidate unchanged. -/
def createUniqueKeyString (m : UMap String V) (keyString : String)
    (algorithm : String := "integer concatenation") : String :=
  if algorithm = "integer concatenation" then
    if contains m keyString then findSuffix m keyString 0 else keyString
  else keyString

/-! ### Basic lemmas about the map operations -/

section MapLemmas

variable [DecidableEq K]

theorem contains_cons (p : K × V) (m : UMap K V) (q : K) :
    contains (p :: m) q = (decide (p.1 = q) || contains m q) := by
  simp [contains]

theorem lookup_cons (p : K × V) (m : UMap K V) (q : K) :
    lookup (p :: m) q = if p.1 = q then some p.2 else lookup m q := by
  by_cases h : p.1 = q
  · simp [lookup, List.find?_cons_of_pos, h]
  · simp [lookup, List.find?_cons_of_neg, h]

theorem contains_eq_false_iff (m : UMap K V) (k : K) :
    contains m k = false ↔ k ∉ keys m := by
  rw [← Bool.not_eq_true, not_iff_not]
  exact contains_iff_mem_keys m k

theorem lookup_eq_none_iff (m : UMap K V) (k : K) :
    lookup m k = none ↔ contains m k = false := by
  induction m with
  | nil => simp [lookup, contains]
  | cons p rest ih =>
    rw [lookup_cons, contains_cons]
    by_cases h : p.1 = k <;> simp [h, ih]

theorem contains_of_lookup_eq_some {m : UMap K V} {k : K} {v : V}
    (h : lookup m k = some v) : contains m k = true := by
  cases hc : contains m k with
  | false => rw [(lookup_eq_none_iff m k).mpr hc] at h; cases h
  | true => rfl

theorem lookup_setItem_self (m : UMap K V) (k : K) (v : V) :
    lookup (setItem m k v) k = some v := by
  induction m with
  | nil => simp [setItem, lookup_cons]
  | cons p rest ih =>
    rw [setItem]
    by_cases h : p.1 = k
    · simp [h, lookup_cons]
    · simp [h, lookup_cons, ih]

theorem lookup_setItem_ne {q k : K} (m : UMap K V) (v : V) (h : q ≠ k) :
    lookup (setItem m k v) q = lookup m q := by
  induction m with
  | nil => simp [setItem, lookup_cons, lookup, Ne.symm h]
  | cons p rest ih =>
    rw [setItem]
    by_cases hp : p.1 = k
    · have hpq : ¬ p.1 = q := by rw [hp]; exact Ne.symm h
      rw [if_pos hp, lookup_cons, lookup_cons, if_neg hpq, if_neg hpq]
    · rw [if_neg hp, lookup_cons, lookup_cons, ih]

theorem contains_setItem_self (m : UMap K V) (k : K) (v : V) :
    contains (setItem m k v) k = true := by
  induction m with
  | nil => simp [setItem, contains_cons]
  | cons p rest ih =>
    rw [setItem]
    by_cases h : p.1 = k
    · simp [h, contains_cons]
    · simp [h, contains_cons, ih]

theorem contains_setItem_ne {q k : K} (m : UMap K V) (v : V) (h : q ≠ k) :
    contains (setItem m k v) q = contains m q := by
  induction m with
  | nil => simp [setItem, contains_cons, contains, Ne.symm h]
  | cons p rest ih =>
    rw [setItem]
    by_cases hp : p.1 = k
    · rw [if_pos hp, contains_cons, contains_cons]
    · rw [if_neg hp, contains_cons, contains_cons, ih]

theorem setItem_of_not_contains {m : UMap K V} {k : K} (v : V)
    (h : contains m k = false) : setItem m k v = m ++ [(k, v)] := by
  induction m with
  | nil => rfl
  | cons p rest ih =>
    rw [contains_cons, Bool.or_eq_false_iff] at h
    rw [setItem, if_neg (by simpa using h.1), ih h.2, List.cons_append]

theorem lookup_append (m1 m2 : UMap K V) (q : K) :
    lookup (m1 ++ m2) q =
      if contains m1 q then lookup m1 q else lookup m2 q := by
  induction m1 with
  | nil => simp [lookup, contains]
  | cons p rest ih =>
    rw [List.cons_append, lookup_cons, contains_cons, lookup_cons]
    by_cases h : p.1 = q
    · simp [h]
    · simp [h, ih]

theorem lookup_of_mem_nodup {m : UMap K V} {k : K} {v : V}
    (hnd : nodupKeys m) (hm : (k, v) ∈ m) : lookup m k = some v := by
  induction m with
  | nil => cases hm
  | cons p rest ih =>
    rw [nodupKeys, keys, List.map_cons, List.nodup_cons] at hnd
    rcases List.mem_cons.mp hm with h | h
    · rw [← h, lookup_cons, if_pos rfl]
    · have hk : p.1 ≠ k := by
        intro he
        exact hnd.1 (he ▸ (List.mem_map.mpr ⟨(k, v), h, rfl⟩))
      rw [lookup_cons, if_neg hk]
      exact ih hnd.2 h

theorem getV_eq_of_lookup {m : UMap K V} {k : K} {v : V} [Inhabited V]
    (h : lookup m k = some v) : getV m k = v := by
  simp [getV, h]

/-- A map with distinct keys splits around any bound key. -/
theorem mem_split_of_lookup {m : UMap K V} {k : K} {v : V}
    (hnd : nodupKeys m) (hl : lookup m k = some v) :
    ∃ m1 m2, m = m1 ++ (k, v) :: m2 ∧ k ∉ keys m1 ∧ k ∉ keys m2 := by
  induction m with
  | nil => simp [lookup] at hl
  | cons p rest ih =>
    rw [nodupKeys, keys, List.map_cons, List.nodup_cons] at hnd
    rw [lookup_cons] at hl
    by_cases h : p.1 = k
    · rw [if_pos h] at hl
      have hv : p.2 = v := by injection hl
      refine ⟨[], rest, ?_, by simp [keys], ?_⟩
      · rw [List.nil_append, ← h, ← hv]
      · rw [← h]
        exact hnd.1
    · rw [if_neg h] at hl
      rcases ih hnd.2 hl with ⟨m1, m2, heq, h1, h2⟩
      refine ⟨p :: m1, m2, by rw [heq, List.cons_append], ?_, h2⟩
      simp only [keys, List.map_cons, List.mem_cons] at h1 ⊢
      push_neg
      exact ⟨fun he => h he.symm, h1⟩

theorem length_erase_of_contains {m : UMap K V} {k : K} (h : contains m k = true) :
    (erase m k).length + 1 = m.length := by
  induction m with
  | nil => simp [contains] at h
  | cons p rest ih =>
    rw [erase]
    by_cases hp : p.1 = k
    · rw [if_pos hp, List.length_cons]
    · rw [if_neg hp, List.length_cons, List.length_cons]
      rw [contains_cons] at h
      simp only [Bool.or_eq_true, decide_eq_true_eq] at h
      rcases h with h | h
      · exact absurd h hp
      · rw [ih h]

theorem contains_erase_self {m : UMap K V} {k : K} (hnd : nodupKeys m) :
    contains (erase m k) k = false := by
  induction m with
  | nil => rfl
  | cons p rest ih =>
    rw [nodupKeys, keys, List.map_cons, List.nodup_cons] at hnd
    rw [erase]
    by_cases hp : p.1 = k
    · rw [if_pos hp]
      apply (contains_eq_false_iff rest k).mpr
      rw [← hp]
      exact hnd.1
    · rw [if_neg hp, contains_cons, ih hnd.2]
      simp [hp]

theorem lookup_erase_ne {m : UMap K V} {q k : K} (h : q ≠ k) :
    lookup (erase m k) q = lookup m q := by
  induction m with
  | nil => rfl
  | cons p rest ih =>
    rw [erase]
    by_cases hp : p.1 = k
    · rw [if_pos hp, lookup_cons, if_neg (by rw [hp]; exact Ne.symm h)]
    · rw [if_neg hp, lookup_cons, lookup_cons, ih]

theorem getRandomKey_eq_some {m : UMap K V} (r : Nat) (h : m ≠ []) :
    ∃ i : Fin m.length, getRandomKey m r = some (m.get i).1 := by
  have hlen : 0 < m.length := List.length_pos.mpr h
  have hidx : r % m.length < m.length := Nat.mod_lt _ hlen
  refine ⟨⟨r % m.length, hidx⟩, ?_⟩
  have hg : m.get? (r % m.length) = some (m.get ⟨r % m.length, hidx⟩) :=
    List.get?_eq_get hidx
  rw [getRandomKey, hg, Option.map_some']

end MapLemmas

/-! ### Claim C1 -/

/-- Claim C1: the spec requires `pickRandomKey` (`getRandomKey`), `firstKey`
(`getFirstKey`) and `popRandomPair` (`popRandom`) to fail with a checked,
explicit `EmptyContainerError` on an empty mapping, leaving it untouched.  The
code has no emptiness guard at all: on an empty map `getRandomKey` computes
`rand() % 0` and the three functions dereference a past-the-end iterator.
This theorem evaluates the embedding at the failing input: all three
operations fall off the end of the (empty) entry list — the `none` comes from
the unguarded out-of-range access itself, not from any error check, so no
`EmptyContainerError` is raised by the code. -/
theorem c1_empty_map_operations_unguarded :
    ∀ r : Nat, getRandomKey ([] : UMap String Nat) r = none
      ∧ getFirstKey ([] : UMap String Nat) = none
      ∧ popRandom ([] : UMap String Nat) r = none := by
  intro r
  exact ⟨rfl, rfl, rfl⟩

/-! ### Claim C2 -/

/-- The first merge loop only inspects whether the target string equals
`"values"`; any two non-`"values"` targets give identical results. -/
theorem addLoop1_target_not_values [DecidableEq K] [Inhabited V]
    (addK : K → K → K) (addV : V → V → V) (A B : UMap K V) (omitShared : Bool)
    (t1 t2 : String) (h1 : t1 ≠ "values") (h2 : t2 ≠ "values") :
    ∀ (L : List (K × V)) (AB : UMap K V),
      addLoop1 addK addV A B t1 omitShared L AB =
        addLoop1 addK addV A B t2 omitShared L AB := by
  intro L
  induction L with
  | nil => intro AB; rfl
  | cons p rest ih =>
    intro AB
    cases p with
    | mk key value =>
      rw [addLoop1, addLoop1, if_neg h1, if_neg h2]
      exact ih _

/-- Claim C2: for every pair of mappings, every key/value combination
operation and every value of `omitKeysNotShared`, `addUnordered_maps`
(spec name: `mergeMappings`) called with target `"keys"` returns exactly the
same mapping as with the default target `"keys and values"`: the code only
distinguishes a `"values"` branch and a default branch. -/
theorem c2_target_keys_same_as_default [DecidableEq K] [Inhabited V]
    (addK : K → K → K) (addV : V → V → V) (A B : UMap K V)
    (omitKeysNotShared : Bool) :
    addUnordered_maps addK addV A B "keys" omitKeysNotShared =
      addUnordered_maps addK addV A B "keys and values" omitKeysNotShared := by
  simp only [addUnordered_maps]
  rw [addLoop1_target_not_values addK addV A B omitKeysNotShared
    "keys" "keys and values" (by decide) (by decide) A []]

/-! ### Claim C7 -/

/-- Claim C7: on a non-empty mapping with distinct keys, `popRandom`
(spec name: `popRandomPair`) returns a pair whose key was present in the
original mapping together with that key's value; afterwards the size has
decreased by exactly 1, the mapping no longer contains that key, and every
other entry is unchanged. -/
theorem c7_popRandom_pops_one_present_pair [DecidableEq K] [Inhabited V]
    (m : UMap K V) (r : Nat) (hne : m ≠ []) (hnd : nodupKeys m) :
    ∃ (k : K) (v : V) (rest : UMap K V),
      popRandom m r = some ((k, v), rest)
      ∧ lookup m k = some v
      ∧ rest.length + 1 = m.length
      ∧ contains rest k = false
      ∧ ∀ q, q ≠ k → lookup rest q = lookup m q := by
  rcases getRandomKey_eq_some r hne with ⟨i, hg⟩
  have hmem : ((m.get i).1, (m.get i).2) ∈ m := by
    cases i with
    | mk n hlt => simpa using List.get_mem m n hlt
  have hl : lookup m (m.get i).1 = some (m.get i).2 :=
    lookup_of_mem_nodup hnd hmem
  have hgv : getV m (m.get i).1 = (m.get i).2 := getV_eq_of_lookup hl
  have hc : contains m (m.get i).1 = true := contains_of_lookup_eq_some hl
  refine ⟨(m.get i).1, (m.get i).2, erase m (m.get i).1, ?_, hl, ?_, ?_, ?_⟩
  · simp only [popRandom, hg, hgv]
  · exact length_erase_of_contains hc
  · exact contains_erase_self hnd
  · intro q hq
    exact lookup_erase_ne hq

/-- Witness for C7 at a concrete non-empty two-entry mapping with `rand()`
returning 3. -/
theorem c7_witness :
    ([("a", 1), ("b", 2)] : UMap String Nat) ≠ []
      ∧ ∃ (k : String) (v : Nat) (rest : UMap String Nat),
        popRandom [("a", 1), ("b", 2)] 3 = some ((k, v), rest)
        ∧ lookup [("a", 1), ("b", 2)] k = some v
        ∧ rest.length + 1 = ([("a", 1), ("b", 2)] : UMap String Nat).length
        ∧ contains rest k = false
        ∧ ∀ q, q ≠ k → lookup rest q = lookup [("a", 1), ("b", 2)] q :=
  ⟨by decide,
    c7_popRandom_pops_one_present_pair [("a", 1), ("b", 2)] 3 (by decide) (by decide)⟩

/-! ### Claim C8 -/

/-- Lemma: `setItem` skips a block of entries whose keys differ from the written
key. -/
theorem setItem_append_of_not_mem [DecidableEq K] {acc : UMap K V} {k : K}
    (h : k ∉ keys acc) (rest : UMap K V) (v : V) :
    setItem (acc ++ rest) k v = acc ++ setItem rest k v := by
  induction acc with
  | nil => rfl
  | cons p tl ih =>
    simp only [keys, List.map_cons, List.mem_cons] at h
    push_neg at h
    rw [List.cons_append, setItem, if_neg (fun he => h.1 he.symm),
      List.cons_append, ih (by simpa [keys] using h.2)]

/-- The zeroing loop, started on a map `acc ++ L` whose remaining part is
exactly the entries still to visit, zeroes precisely the negative values of
that part. -/
theorem negLoop_split [DecidableEq K] :
    ∀ (L : List (K × Int)) (acc : UMap K Int),
      (∀ x ∈ keys acc, x ∉ keys L) → (keys L).Nodup →
      negLoop L (acc ++ L) =
        acc ++ L.map (fun p => if p.2 < 0 then (p.1, 0) else p) := by
  intro L
  induction L with
  | nil => intro acc _ _; simp [negLoop]
  | cons p L' ih =>
    intro acc hdisj hnd
    cases p with
    | mk k v =>
      simp only [keys, List.map_cons, List.nodup_cons] at hnd
      have hk_acc : k ∉ keys acc := fun hin =>
        (hdisj k hin) (by simp [keys])
      have hstep : ∀ w : Int, setItem (acc ++ (k, v) :: L') k w = acc ++ (k, w) :: L' := by
        intro w
        rw [setItem_append_of_not_mem hk_acc, setItem, if_pos rfl]
      have hdisj' : ∀ x ∈ keys (acc ++ [(k, (0 : Int))]), x ∉ keys L' := by
        intro x hx
        simp only [keys, List.map_append, List.mem_append, List.map_cons,
          List.mem_singleton] at hx
        rcases hx with hx | hx
        · intro hmem
          apply hdisj x hx
          simp only [keys, List.map_cons, List.mem_cons]
          exact Or.inr hmem
        · have hxk : x = k := by simpa using hx
          rw [hxk]
          exact hnd.1
      have hdisjv : ∀ x ∈ keys (acc ++ [(k, v)]), x ∉ keys L' := by
        intro x hx
        simp only [keys, List.map_append, List.mem_append, List.map_cons,
          List.mem_singleton] at hx
        rcases hx with hx | hx
        · intro hmem
          apply hdisj x hx
          simp only [keys, List.map_cons, List.mem_cons]
          exact Or.inr hmem
        · have hxk : x = k := by simpa using hx
          rw [hxk]
          exact hnd.1
      rw [negLoop]
      by_cases hv : v < 0
      · rw [if_pos hv, hstep 0]
        have hassoc : acc ++ (k, (0 : Int)) :: L' = (acc ++ [(k, (0 : Int))]) ++ L' := by
          simp
        rw [hassoc, ih (acc ++ [(k, (0 : Int))]) hdisj' hnd.2]
        simp [hv]
      · rw [if_neg hv]
        have hassoc : acc ++ (k, v) :: L' = (acc ++ [(k, v)]) ++ L' := by simp
        rw [hassoc, ih (acc ++ [(k, v)]) hdisjv hnd.2]
        simp [hv]

/-- Claim C8: `setNegativeValuesToZero` (spec name: `zeroNegativeValues`)
replaces every negative value by zero in place, leaving non-negative values
and the key sequence unchanged: the result is exactly the entrywise clamp of
the original mapping. -/
theorem c8_setNegativeValuesToZero_clamps [DecidableEq K] (m : UMap K Int)
    (hnd : nodupKeys m) :
    setNegativeValuesToZero m =
      m.map (fun p => if p.2 < 0 then (p.1, 0) else p) := by
  have h := negLoop_split m ([] : UMap K Int) (by simp [keys]) hnd
  simpa [setNegativeValuesToZero] using h

/-- Witness for C8: the spec's own example
`{"a":3, "b":-9001, "c":-4} ↦ {"a":3, "b":0, "c":0}`. -/
theorem c8_witness :
    setNegativeValuesToZero [("a", 3), ("b", -9001), ("c", -4)] =
      [("a", (3 : Int)), ("b", 0), ("c", 0)] := by
  rw [c8_setNegativeValuesToZero_clamps [("a", 3), ("b", -9001), ("c", -4)]
    (by decide)]
  decide

/-! ### Claim C4 -/

/-- Lookup after the strip-and-`emplace` loop: an entry already in the
accumulator always wins; otherwise the value comes from the **first** entry of
the remaining list whose stripped key matches, because `emplace` never
overwrites. -/
theorem eraseLoop_lookup (str : String) :
    ∀ (L : List (String × V)) (acc : UMap String V) (q : String),
      lookup (eraseLoop str L acc) q =
        match lookup acc q with
        | some w => some w
        | none =>
          (L.find? fun p => decide (replaceSubstr p.1 str "" = q)).map Prod.snd := by
  intro L
  induction L with
  | nil =>
    intro acc q
    cases h : lookup acc q <;> simp [eraseLoop, h]
  | cons p L' ih =>
    intro acc q
    cases p with
    | mk key value =>
      rw [eraseLoop, ih]
      by_cases hc : contains acc (replaceSubstr key str "") = true
      · rw [emplace, if_pos hc]
        cases h : lookup acc q with
        | some w => rfl
        | none =>
          have hq : ¬ (replaceSubstr key str "" = q) := by
            intro he
            rw [he] at hc
            rw [(lookup_eq_none_iff acc q).mp h] at hc
            cases hc
          rw [List.find?_cons_of_neg _ (by simpa using hq)]
      · have hc' : contains acc (replaceSubstr key str "") = false := by
          simpa using hc
        rw [emplace, if_neg (by simp [hc'])]
        cases h : lookup acc q with
        | some w =>
          have hcq : contains acc q = true := contains_of_lookup_eq_some h
          rw [lookup_append, if_pos hcq, h]
        | none =>
          have hcq : contains acc q = false := (lookup_eq_none_iff acc q).mp h
          rw [lookup_append, if_neg (by simp [hcq])]
          by_cases he : replaceSubstr key str "" = q
          · rw [List.find?_cons_of_pos _ (by simpa using he), lookup_cons,
              if_pos he]
            rfl
          · rw [List.find?_cons_of_neg _ (by simpa using he), lookup_cons,
              if_neg he]
            rfl

/-- Counterexample to claim C4 as stated: the claim says that when two
distinct keys collapse to the same stripped key, the **later** entry in
iteration order overwrites the earlier one (last-write-wins).  With
`{"ax" ↦ 1, "xa" ↦ 2}` and substring `"x"`, both keys strip to `"a"`, yet the
result binds `"a"` to the **first** entry's value `1`, not the later value
`2`: `emplace` never overwrites, so the policy is first-write-wins. -/
theorem c4_counterexample :
    replaceSubstr "ax" "x" "" = "a"
      ∧ replaceSubstr "xa" "x" "" = "a"
      ∧ eraseStringFromKeys [("ax", 1), ("xa", 2)] "x" = [("a", (1 : Nat))]
      ∧ lookup (eraseStringFromKeys [("ax", 1), ("xa", 2)] "x") "a" = some 1
      ∧ some (1 : Nat) ≠ some 2 := by
  refine ⟨rfl, rfl, rfl, rfl, by decide⟩

/-- Claim C4, amended: `eraseStringFromKeys` strips every occurrence of the
substring from each key (per the collaborator's replace-all semantics), and
when two distinct original keys collapse to the same stripped key the entry
occurring **earlier** in iteration order wins (first-write-wins: `emplace`
silently drops the later entry).  Formally, looking up any key `q` in the
result returns the value of the first original entry whose stripped key
equals `q`. -/
theorem c4_eraseStringFromKeys_first_wins (m : UMap String V) (str q : String) :
    lookup (eraseStringFromKeys m str) q =
      (m.find? fun p => decide (replaceSubstr p.1 str "" = q)).map Prod.snd := by
  rw [eraseStringFromKeys, eraseLoop_lookup str m [] q]
  rfl

/-! ### Claims C9 and C10 -/

/-- Full characterisation of the suffix-search loop: it exits after finitely
many iterations, at the first unused suffixed key. -/
theorem findSuffix_spec (m : UMap String V) (orig : String) :
    ∀ i, ∃ d, findSuffix m orig i = orig ++ Nat.repr (i + d)
      ∧ contains m (orig ++ Nat.repr (i + d)) = false := by
  have H : ∀ (n i : Nat), Nat.find (suffixUnused m orig i) = n →
      ∃ d, findSuffix m orig i = orig ++ Nat.repr (i + d)
        ∧ contains m (orig ++ Nat.repr (i + d)) = false := by
    intro n
    induction n using Nat.strong_induction_on with
    | _ n ih =>
      intro i hn
      by_cases h : contains m (orig ++ Nat.repr i) = true
      · have hlt := find_suffixUnused_decreases m orig i h
        rw [hn] at hlt
        rcases ih _ hlt (i + 1) rfl with ⟨d, hfs, hc⟩
        have harith : i + 1 + d = i + (d + 1) := by omega
        refine ⟨d + 1, ?_, ?_⟩
        · rw [findSuffix.eq_def, dif_pos h, hfs, harith]
        · rw [← harith]
          exact hc
      · refine ⟨0, ?_, ?_⟩
        · rw [findSuffix.eq_def, dif_neg h, Nat.add_zero]
        · rw [Nat.add_zero]
          simpa using h
  intro i
  exact H (Nat.find (suffixUnused m orig i)) i rfl

/-- Claim C10: `createUniqueKeyString`'s `"integer concatenation"` loop
terminates for every finite mapping and every candidate: starting from any
suffix `i`, the loop appending `std::to_string` of increasing integers exits
after finitely many further iterations (`d` of them), because the map is
finite while the suffixed keys are pairwise distinct, so some suffixed key is
unused — and the loop stops exactly at such an unused key. -/
theorem c10_integer_suffix_loop_terminates (m : UMap String V) (orig : String)
    (i : Nat) :
    ∃ d, findSuffix m orig i = orig ++ Nat.repr (i + d)
      ∧ contains m (orig ++ Nat.repr (i + d)) = false :=
  findSuffix_spec m orig i

/-- Claim C9: `createUniqueKeyString` (spec name: `makeUniqueKey`) with the
integer-suffix strategy returns a key not contained in the mapping (and never
inserts it — the embedding of the function only reads the map through
`contains`); an absent candidate is returned unchanged; and for a mapping
containing exactly `"k"` and `"k0"` with candidate `"k"` the result is
`"k1"`. -/
theorem c9_createUniqueKeyString_returns_fresh_key (m : UMap String V)
    (keyString : String) :
    contains m (createUniqueKeyString m keyString "integer concatenation") = false
    ∧ (contains m keyString = false →
        createUniqueKeyString m keyString "integer concatenation" = keyString)
    ∧ createUniqueKeyString [("k", 1), ("k0", 2)] "k" "integer concatenation"
        = "k1" := by
  refine ⟨?_, ?_, ?_⟩
  · unfold createUniqueKeyString
    rw [if_pos rfl]
    by_cases hc : contains m keyString = true
    · rw [if_pos hc]
      rcases findSuffix_spec m keyString 0 with ⟨d, hfs, hcon⟩
      rw [hfs]
      exact hcon
    · rw [if_neg hc]
      simpa using hc
  · intro hc
    unfold createUniqueKeyString
    rw [if_pos rfl, if_neg (by simp [hc])]
  · unfold createUniqueKeyString
    rw [if_pos rfl, if_pos (by decide)]
    rw [findSuffix.eq_def, dif_pos (by decide)]
    show findSuffix [("k", 1), ("k0", 2)] "k" 1 = "k1"
    rw [findSuffix.eq_def, dif_neg (by decide)]
    decide

/-- Witness for C9 at a concrete mapping lacking the candidate: the inner
implication's hypothesis is discharged at `{"a" ↦ 1}` with candidate `"b"`. -/
theorem c9_witness :
    createUniqueKeyString [("a", 1)] "b" "integer concatenation" = "b" :=
  (c9_createUniqueKeyString_returns_fresh_key [("a", (1 : Nat))] "b").2.1
    (by decide)

/-! ### Lemmas about the merge loops -/

theorem addLoop1_append [DecidableEq K] [Inhabited V] (addK : K → K → K)
    (addV : V → V → V) (A B : UMap K V) (t : String) (o : Bool) :
    ∀ (L1 L2 : List (K × V)) (AB : UMap K V),
      addLoop1 addK addV A B t o (L1 ++ L2) AB =
        addLoop1 addK addV A B t o L2 (addLoop1 addK addV A B t o L1 AB) := by
  intro L1
  induction L1 with
  | nil => intro L2 AB; rfl
  | cons p rest ih =>
    intro L2 AB
    cases p with
    | mk key value =>
      rw [List.cons_append, addLoop1, addLoop1, ih]

/-- If no entry of `L` writes to key `q` (the written key of a shared entry
being the target-dependent combination, and of an unshared entry its own
key), the first merge loop preserves the binding of `q`. -/
theorem addLoop1_lookup_preserved [DecidableEq K] [Inhabited V]
    (addK : K → K → K) (addV : V → V → V) (A B : UMap K V) (t : String)
    (o : Bool) (q : K) :
    ∀ (L : List (K × V)) (AB : UMap K V),
      (∀ p ∈ L,
        (if contains B p.1 then
          (if t = "values" then p.1 else addK p.1 p.1)
        else p.1) ≠ q) →
      lookup (addLoop1 addK addV A B t o L AB) q = lookup AB q := by
  intro L
  induction L with
  | nil => intro AB _; rfl
  | cons p rest ih =>
    intro AB hcond
    cases p with
    | mk key value =>
      have hp := hcond (key, value) (List.mem_cons_self _ _)
      have htail : ∀ p ∈ rest,
          (if contains B p.1 then
            (if t = "values" then p.1 else addK p.1 p.1)
          else p.1) ≠ q :=
        fun p hm => hcond p (List.mem_cons_of_mem _ hm)
      rw [addLoop1, ih _ htail]
      by_cases hB : contains B key = true
      · simp only [hB, if_true] at hp
        rw [if_pos hB]
        by_cases ht : t = "values"
        · simp only [ht, if_pos rfl] at hp ⊢
          exact lookup_setItem_ne AB _ (Ne.symm hp)
        · rw [if_neg ht] at hp ⊢
          exact lookup_setItem_ne AB _ (Ne.symm hp)
      · have hB' : contains B key = false := by simpa using hB
        simp only [hB', Bool.false_eq_true, if_false] at hp
        rw [if_neg hB]
        by_cases ho : o = true
        · rw [ho]
          rfl
        · have ho' : o = false := by simpa using ho
          rw [ho']
          exact lookup_setItem_ne AB _ (Ne.symm hp)

theorem addLoop2_append [DecidableEq K] :
    ∀ (L1 L2 : List (K × V)) (AB : UMap K V),
      addLoop2 (L1 ++ L2) AB = addLoop2 L2 (addLoop2 L1 AB) := by
  intro L1
  induction L1 with
  | nil => intro L2 AB; rfl
  | cons p rest ih =>
    intro L2 AB
    cases p with
    | mk key value =>
      rw [List.cons_append, addLoop2, addLoop2, ih]

/-- The second merge loop never overwrites: a key already present keeps its
binding. -/
theorem addLoop2_lookup_of_contains [DecidableEq K] :
    ∀ (L : List (K × V)) (AB : UMap K V) (q : K), contains AB q = true →
      lookup (addLoop2 L AB) q = lookup AB q
        ∧ contains (addLoop2 L AB) q = true := by
  intro L
  induction L with
  | nil => intro AB q h; exact ⟨rfl, h⟩
  | cons p rest ih =>
    intro AB q h
    cases p with
    | mk x w =>
      rw [addLoop2]
      by_cases hx : contains AB x = true
      · rw [if_neg (by simp [hx])]
        exact ih AB q h
      · have hx' : contains AB x = false := by simpa using hx
        have hqx : q ≠ x := fun he => by rw [he, hx'] at h; cases h
        rw [if_pos (by simp [hx'])]
        have hc : contains (setItem AB x w) q = true := by
          rw [contains_setItem_ne AB w hqx]
          exact h
        rcases ih (setItem AB x w) q hc with ⟨h1, h2⟩
        exact ⟨h1.trans (lookup_setItem_ne AB w hqx), h2⟩

/-- If `q` is not a key of `L`, the second merge loop leaves `q`'s binding and
containment unchanged. -/
theorem addLoop2_untouched [DecidableEq K] :
    ∀ (L : List (K × V)) (AB : UMap K V) (q : K), (∀ p ∈ L, p.1 ≠ q) →
      lookup (addLoop2 L AB) q = lookup AB q
        ∧ contains (addLoop2 L AB) q = contains AB q := by
  intro L
  induction L with
  | nil => intro AB q _; exact ⟨rfl, rfl⟩
  | cons p rest ih =>
    intro AB q hcond
    cases p with
    | mk x w =>
      have hx : x ≠ q := hcond (x, w) (List.mem_cons_self _ _)
      have htail : ∀ p ∈ rest, p.1 ≠ q :=
        fun p hm => hcond p (List.mem_cons_of_mem _ hm)
      rw [addLoop2]
      by_cases hc : contains AB x = true
      · rw [if_neg (by simp [hc])]
        exact ih AB q htail
      · have hc' : contains AB x = false := by simpa using hc
        rw [if_pos (by simp [hc'])]
        rcases ih (setItem AB x w) q htail with ⟨h1, h2⟩
        exact ⟨h1.trans (lookup_setItem_ne AB w (Ne.symm hx)),
          h2.trans (contains_setItem_ne AB w (Ne.symm hx))⟩

/-! ### Claim C6 -/

/-- Claim C6: for all mappings `A` and `B` sharing a key `k` with values `a`
and `b`, and for either value of `omitKeysNotShared`, the merge in `"values"`
mode binds `k` to `a + b` in the result. -/
theorem c6_values_mode_adds_shared_values [DecidableEq K] [Inhabited V]
    (addK : K → K → K) (addV : V → V → V) (A B : UMap K V) (k : K) (a b : V)
    (omitKeysNotShared : Bool) (hA : nodupKeys A)
    (ha : lookup A k = some a) (hb : lookup B k = some b) :
    lookup (addUnordered_maps addK addV A B "values" omitKeysNotShared) k
      = some (addV a b) := by
  have hBk : contains B k = true := contains_of_lookup_eq_some hb
  rcases mem_split_of_lookup hA ha with ⟨A1, A2, hAeq, hk1, hk2⟩
  have ha' : lookup (A1 ++ (k, a) :: A2) k = some a := hAeq ▸ ha
  have hga : getV (A1 ++ (k, a) :: A2) k = a := getV_eq_of_lookup ha'
  have hgb : getV B k = b := getV_eq_of_lookup hb
  have hloop1 :
      lookup (addLoop1 addK addV A B "values" omitKeysNotShared A []) k
        = some (addV a b) := by
    rw [hAeq, addLoop1_append, addLoop1]
    rw [addLoop1_lookup_preserved addK addV _ B "values" omitKeysNotShared k A2 _
      (by
        intro p hp
        have hpk : p.1 ≠ k := fun he =>
          hk2 (he ▸ List.mem_map.mpr ⟨p, hp, rfl⟩)
        by_cases hc : contains B p.1 = true
        · simp only [hc, if_true, if_pos rfl]
          exact hpk
        · have hc' : contains B p.1 = false := by simpa using hc
          simp only [hc', Bool.false_eq_true, if_false]
          exact hpk)]
    rw [if_pos hBk, if_pos rfl, hga, hgb, lookup_setItem_self]
  have houter : ∀ AB : UMap K V, lookup AB k = some (addV a b) →
      lookup (if !omitKeysNotShared then addLoop2 B AB else AB) k
        = some (addV a b) := by
    intro AB hAB
    cases omitKeysNotShared with
    | true => simpa using hAB
    | false =>
      simp only [Bool.not_false, if_true]
      rw [(addLoop2_lookup_of_contains B AB k
        (contains_of_lookup_eq_some hAB)).1]
      exact hAB
  have hfin := houter _ hloop1
  simpa [addUnordered_maps] using hfin

/-- Witness for C6 at `A = {"k" ↦ 2}`, `B = {"k" ↦ 3}`: the merged `"values"`
map binds `"k"` to `2 + 3`. -/
theorem c6_witness :
    lookup (addUnordered_maps (· ++ ·) (· + ·) [("k", 2)] [("k", 3)]
        "values" false) "k" = some (2 + 3) :=
  c6_values_mode_adds_shared_values (· ++ ·) (· + ·) [("k", 2)] [("k", 3)]
    "k" 2 3 false (by decide) (by decide) (by decide)

/-! ### Claim C5 -/

/-- Self-concatenation of strings is injective. -/
theorem self_append_inj {x y : String} (h : x ++ x = y ++ y) : x = y := by
  have hd := congrArg String.data h
  simp only [String.data_append] at hd
  have hlen : x.data.length = y.data.length := by
    have hl := congrArg List.length hd
    simp only [List.length_append] at hl
    omega
  exact String.ext (List.append_inj hd hlen).1

/-- Counterexample to claim C5 as stated: with `A = {"a" ↦ 1, "aa" ↦ 5}` and
`B = {"a" ↦ 10}`, the shared key `k = "a"` satisfies the claim's hypothesis
(`"a"` is not the self-concatenation of any shared key), yet the combined
entry at `"aa"` does not hold `A["a"] + B["a"] = 11`: the unshared key
`"aa"` of `A` is copied through later in the first loop and overwrites the
combined entry, leaving value `5`. -/
theorem c5_counterexample :
    lookup [("a", 1), ("aa", 5)] "a" = some (1 : Nat)
      ∧ lookup [("a", (10 : Nat))] "a" = some 10
      ∧ (∀ j ∈ keys [("a", (1 : Nat)), ("aa", 5)],
          contains [("a", (10 : Nat))] j = true → ("a" : String) ≠ j ++ j)
      ∧ lookup (addUnordered_maps (· ++ ·) (· + ·) [("a", 1), ("aa", 5)]
          [("a", 10)] "keys and values" false) ("a" ++ "a") = some 5
      ∧ some (5 : Nat) ≠ some (1 + 10) := by
  refine ⟨rfl, rfl, by decide, rfl, by decide⟩

/-- Claim C5, amended: the conclusion additionally requires that `k + k` is
not an unshared key of `A` (an unshared key equal to `k + k`, copied through
after `k` is processed, would overwrite the combined entry — exactly what the
counterexample exhibits).  Under the claim's hypothesis strengthened this
way, merging with target `"keys and values"` and `omitKeysNotShared = false`
yields both the combined entry `k + k ↦ A[k] + B[k]` and the original key
`k ↦ B[k]`. -/
theorem c5_amended_combined_and_b_entry [Inhabited V] (addV : V → V → V)
    (A B : UMap String V) (k : String) (a b : V)
    (hA : nodupKeys A) (hB : nodupKeys B)
    (ha : lookup A k = some a) (hb : lookup B k = some b)
    (hsc : ∀ j, contains A j = true → contains B j = true → k ≠ j ++ j)
    (hkk : contains A (k ++ k) = true → contains B (k ++ k) = true) :
    lookup (addUnordered_maps (· ++ ·) addV A B "keys and values" false)
        (k ++ k) = some (addV a b)
    ∧ lookup (addUnordered_maps (· ++ ·) addV A B "keys and values" false) k
        = some b := by
  have hAk : contains A k = true := contains_of_lookup_eq_some ha
  have hBk : contains B k = true := contains_of_lookup_eq_some hb
  constructor
  · -- the combined entry at k ++ k
    rcases mem_split_of_lookup hA ha with ⟨A1, A2, hAeq, hk1, hk2⟩
    have ha' : lookup (A1 ++ (k, a) :: A2) k = some a := hAeq ▸ ha
    have hga : getV (A1 ++ (k, a) :: A2) k = a := getV_eq_of_lookup ha'
    have hgb : getV B k = b := getV_eq_of_lookup hb
    have hloop1 :
        lookup (addLoop1 (· ++ ·) addV A B "keys and values" false A [])
          (k ++ k) = some (addV a b) := by
      rw [hAeq, addLoop1_append, addLoop1]
      rw [addLoop1_lookup_preserved (· ++ ·) addV _ B "keys and values" false
        (k ++ k) A2 _
        (by
          intro p hp
          by_cases hc : contains B p.1 = true
          · simp only [hc, if_true,
              if_neg (show ¬("keys and values" = "values") by decide)]
            intro he
            have hpk : p.1 = k := self_append_inj he
            exact hk2 (hpk ▸ List.mem_map.mpr ⟨p, hp, rfl⟩)
          · have hc' : contains B p.1 = false := by simpa using hc
            simp only [hc', Bool.false_eq_true, if_false]
            intro he
            have hpA : contains A p.1 = true := by
              rw [hAeq]
              apply (contains_iff_mem_keys _ _).mpr
              simp only [keys, List.map_append, List.map_cons,
                List.mem_append, List.mem_cons]
              exact Or.inr (Or.inr (List.mem_map.mpr ⟨p, hp, rfl⟩))
            rw [he] at hpA hc'
            rw [hkk hpA] at hc'
            cases hc')]
      rw [if_pos hBk, if_neg (show ¬("keys and values" = "values") by decide),
        hga, hgb, lookup_setItem_self]
    show lookup (addLoop2 B
      (addLoop1 (· ++ ·) addV A B "keys and values" false A [])) (k ++ k)
        = some (addV a b)
    rw [(addLoop2_lookup_of_contains B _ (k ++ k)
      (contains_of_lookup_eq_some hloop1)).1]
    exact hloop1
  · -- the original key k keeps B's value
    have hl1 :
        lookup (addLoop1 (· ++ ·) addV A B "keys and values" false A []) k
          = none := by
      rw [addLoop1_lookup_preserved (· ++ ·) addV A B "keys and values" false
        k A []
        (by
          intro p hp
          by_cases hc : contains B p.1 = true
          · simp only [hc, if_true,
              if_neg (show ¬("keys and values" = "values") by decide)]
            intro he
            have hpA : contains A p.1 = true :=
              (contains_iff_mem_keys _ _).mpr (List.mem_map.mpr ⟨p, hp, rfl⟩)
            exact (hsc p.1 hpA hc) he.symm
          · have hc' : contains B p.1 = false := by simpa using hc
            simp only [hc', Bool.false_eq_true, if_false]
            intro he
            rw [he, hBk] at hc'
            cases hc')]
      rfl
    have hcf :
        contains (addLoop1 (· ++ ·) addV A B "keys and values" false A []) k
          = false := (lookup_eq_none_iff _ _).mp hl1
    rcases mem_split_of_lookup hB hb with ⟨B1, B2, hBeq, hkB1, hkB2⟩
    show lookup (addLoop2 B
      (addLoop1 (· ++ ·) addV A B "keys and values" false A [])) k = some b
    set AB0 := addLoop1 (· ++ ·) addV A B "keys and values" false A []
      with hAB0
    rw [hBeq, addLoop2_append, addLoop2]
    have hc1 : contains (addLoop2 B1 AB0) k = false :=
      (addLoop2_untouched B1 AB0 k
        (fun p hp he => hkB1 (he ▸ List.mem_map.mpr ⟨p, hp, rfl⟩))).2.trans hcf
    rw [if_pos (by simp [hc1])]
    rw [(addLoop2_lookup_of_contains B2 _ k
      (contains_setItem_self (addLoop2 B1 AB0) k b)).1, lookup_setItem_self]

/-- Witness for C5 at `A = {"a" ↦ 1}`, `B = {"a" ↦ 10}`: the result holds
both `"aa" ↦ 11` and `"a" ↦ 10`. -/
theorem c5_witness :
    lookup (addUnordered_maps (· ++ ·) (· + ·) [("a", 1)] [("a", 10)]
        "keys and values" false) ("a" ++ "a") = some (1 + 10)
    ∧ lookup (addUnordered_maps (· ++ ·) (· + ·) [("a", 1)] [("a", 10)]
        "keys and values" false) "a" = some 10 :=
  c5_amended_combined_and_b_entry (· + ·) [("a", 1)] [("a", 10)] "a" 1 10
    (by decide) (by decide) (by decide) (by decide)
    (by
      intro j hj _
      have hja : j = "a" := by
        have hm := (contains_iff_mem_keys [("a", (1 : Nat))] j).mp hj
        simpa [keys] using hm
      rw [hja]
      decide)
    (by
      intro h
      exact absurd h (by decide))

/-! ### Claim C3 -/

theorem contains_append [DecidableEq K] (m1 m2 : UMap K V) (q : K) :
    contains (m1 ++ m2) q = (contains m1 q || contains m2 q) := by
  simp [contains, List.any_append]

/-- With `omitKeysNotShared = true`, the first merge loop only acts on shared
entries, and when the written keys are fresh and pairwise distinct it appends
one combined entry per shared entry, in iteration order. -/
theorem addLoop1_omit_true_appends [DecidableEq K] [Inhabited V]
    (addK : K → K → K) (addV : V → V → V) (A B : UMap K V) (t : String) :
    ∀ (L : List (K × V)) (AB : UMap K V),
      ((L.filter (fun p => contains B p.1)).map
        (fun p => if t = "values" then p.1 else addK p.1 p.1)).Nodup →
      (∀ p ∈ L, contains B p.1 = true →
        contains AB (if t = "values" then p.1 else addK p.1 p.1) = false) →
      addLoop1 addK addV A B t true L AB =
        AB ++ (L.filter (fun p => contains B p.1)).map
          (fun p => (if t = "values" then p.1 else addK p.1 p.1,
            addV (getV A p.1) (getV B p.1))) := by
  intro L
  induction L with
  | nil => intro AB _ _; simp [addLoop1]
  | cons p rest ih =>
    intro AB hnd hdisj
    cases p with
    | mk key value =>
      rw [addLoop1]
      by_cases hc : contains B key = true
      · have hwk :
            (if contains B key then
              if t = "values" then
                setItem AB key (addV (getV A key) (getV B key))
              else
                setItem AB (addK key key) (addV (getV A key) (getV B key))
            else
              if !true then setItem AB key value else AB) =
              setItem AB (if t = "values" then key else addK key key)
                (addV (getV A key) (getV B key)) := by
          rw [if_pos hc]
          by_cases ht : t = "values"
          · rw [if_pos ht, if_pos ht]
          · rw [if_neg ht, if_neg ht]
        rw [hwk, setItem_of_not_contains _ (hdisj (key, value)
          (List.mem_cons_self _ _) hc)]
        have hfilter :
            ((key, value) :: rest).filter (fun p => contains B p.1) =
              (key, value) :: rest.filter (fun p => contains B p.1) := by
          simp [List.filter_cons, hc]
        rw [hfilter] at hnd
        rw [List.map_cons, List.nodup_cons] at hnd
        rw [ih (AB ++ [((if t = "values" then key else addK key key),
            addV (getV A key) (getV B key))]) hnd.2
          (by
            intro q hq hqc
            rw [contains_append, Bool.or_eq_false_iff]
            refine ⟨hdisj q (List.mem_cons_of_mem _ hq) hqc, ?_⟩
            have hq_mem :
                (if t = "values" then q.1 else addK q.1 q.1) ∈
                  (rest.filter (fun p => contains B p.1)).map
                    (fun p => if t = "values" then p.1 else addK p.1 p.1) :=
              List.mem_map.mpr ⟨q, List.mem_filter.mpr ⟨hq, by simpa using hqc⟩, rfl⟩
            have hne : (if t = "values" then key else addK key key) ≠
                (if t = "values" then q.1 else addK q.1 q.1) :=
              fun he => hnd.1 (he ▸ hq_mem)
            simp [contains, hne])]
        rw [hfilter, List.map_cons]
        simp
      · have hc' : contains B key = false := by simpa using hc
        have hstep :
            (if contains B key then
              if t = "values" then
                setItem AB key (addV (getV A key) (getV B key))
              else
                setItem AB (addK key key) (addV (getV A key) (getV B key))
            else
              if !true then setItem AB key value else AB) = AB := by
          rw [if_neg hc]
          simp
        rw [hstep]
        have hfilter :
            ((key, value) :: rest).filter (fun p => contains B p.1) =
              rest.filter (fun p => contains B p.1) := by
          simp [List.filter_cons, hc']
        rw [hfilter] at hnd ⊢
        exact ih AB hnd
          (fun q hq hqc => hdisj q (List.mem_cons_of_mem _ hq) hqc)

/-- Counterexample to claim C3 as stated: with `A = {"a" ↦ 1}`,
`B = {"a" ↦ 2}` and target `"keys and values"`, the key `"a"` is shared, yet
the key set of `mergeMappings(A, B, "keys and values", omitUnshared = true)`
is `{"aa"}`, not the shared-key set `{"a"}`: in the non-`"values"` modes the
combined entry is stored under the self-concatenated key. -/
theorem c3_counterexample :
    ("a" ∈ keys [("a", (1 : Nat))] ∧ contains [("a", (2 : Nat))] "a" = true)
    ∧ keys (addUnordered_maps (· ++ ·) (· + ·) [("a", 1)] [("a", 2)]
        "keys and values" true) = ["aa"]
    ∧ ("a" : String) ∉ keys (addUnordered_maps (· ++ ·) (· + ·) [("a", 1)]
        [("a", 2)] "keys and values" true) := by
  decide

/-- Claim C3, amended: with `omitUnshared = true` the result has exactly one
entry per shared key — its size is `|keys(A) ∩ keys(B)|` in every target mode
— but its key list is the shared keys themselves only in `"values"` mode; in
the `"keys"`/`"keys and values"` modes it is their self-concatenations
`k ++ k` (pairwise distinct, since self-concatenation of strings is
injective). -/
theorem c3_amended_shared_key_image [Inhabited V] (addV : V → V → V)
    (A B : UMap String V) (t : String) (hA : nodupKeys A) :
    keys (addUnordered_maps (· ++ ·) addV A B t true) =
      (A.filter (fun p => contains B p.1)).map
        (fun p => if t = "values" then p.1 else p.1 ++ p.1)
    ∧ (addUnordered_maps (· ++ ·) addV A B t true).length =
      (A.filter (fun p => contains B p.1)).length := by
  have hkn : ((A.filter (fun p => contains B p.1)).map Prod.fst).Nodup :=
    List.Nodup.sublist ((List.filter_sublist A).map Prod.fst) hA
  have hmapeq :
      (A.filter (fun p => contains B p.1)).map
          (fun p => if t = "values" then p.1 else p.1 ++ p.1) =
        ((A.filter (fun p => contains B p.1)).map Prod.fst).map
          (fun x => if t = "values" then x else x ++ x) := by
    rw [List.map_map]
    rfl
  have hinj : Function.Injective
      (fun x : String => if t = "values" then x else x ++ x) := by
    by_cases ht : t = "values"
    · simp only [ht, if_pos rfl]
      exact fun x y h => h
    · simp only [ht, if_false]
      exact fun x y h => self_append_inj h
  have hnodup : ((A.filter (fun p => contains B p.1)).map
      (fun p => if t = "values" then p.1 else p.1 ++ p.1)).Nodup := by
    rw [hmapeq]
    exact List.Nodup.map hinj hkn
  have hres : addUnordered_maps (· ++ ·) addV A B t true =
      (A.filter (fun p => contains B p.1)).map
        (fun p => (if t = "values" then p.1 else p.1 ++ p.1,
          addV (getV A p.1) (getV B p.1))) := by
    show addLoop1 (· ++ ·) addV A B t true A [] = _
    rw [addLoop1_omit_true_appends (· ++ ·) addV A B t A [] hnodup
      (fun p _ _ => rfl)]
    rw [List.nil_append]
  constructor
  · rw [hres]
    simp only [keys, List.map_map]
    rfl
  · rw [hres, List.length_map]

/-- Witness for C3 at `A = {"a" ↦ 1, "b" ↦ 2}`, `B = {"b" ↦ 5, "c" ↦ 7}`,
target `"keys and values"`. -/
theorem c3_witness :
    keys (addUnordered_maps (· ++ ·) (· + ·) [("a", 1), ("b", 2)]
        [("b", 5), ("c", 7)] "keys and values" true) =
      ([("a", (1 : Nat)), ("b", 2)].filter
        (fun p => contains [("b", (5 : Nat)), ("c", 7)] p.1)).map
        (fun p => if "keys and values" = "values" then p.1 else p.1 ++ p.1)
    ∧ (addUnordered_maps (· ++ ·) (· + ·) [("a", 1), ("b", 2)]
        [("b", 5), ("c", 7)] "keys and values" true).length =
      ([("a", (1 : Nat)), ("b", 2)].filter
        (fun p => contains [("b", (5 : Nat)), ("c", 7)] p.1)).length :=
  c3_amended_shared_key_image (· + ·) [("a", 1), ("b", 2)] [("b", 5), ("c", 7)]
    "keys and values" (by decide)

end StevensMapLib
